import Mathlib

/-!
Verification development for the vocab-bot spaced-repetition core
(`src/db.py`, `src/main.py`).

Modelling conventions:
* SQLite `INTEGER` columns and Unix timestamps are modelled as `Int`;
  Python strings are modelled as `List Char`.
* The `words` table is a `List WordRow`, the `mistakes` table a
  `List MistakeRow`; a whole database is a `DB`.
* `time.time()` is passed in explicitly as a `now : Int` argument.
* The in-memory interval dictionary `_LEVEL_TO_MINUTES` (refreshed from a
  JSON file by `load_intervals_from_file`, which is I/O) is passed in
  explicitly as an association list `tbl : List (Int × Int)`; the default
  value is `DEFAULT_LEVEL_TO_MINUTES`.
* `random.choice` / SQL `ORDER BY RANDOM() LIMIT 1` draw uniformly from a
  candidate list; this is modelled by an extra parameter `r : Nat` and the
  pick `l[r % l.length]`, which is uniform when `r` is uniform.
-/

namespace VocabBot

/-- Default intervals (in minutes) for progress 1..12 — `DEFAULT_LEVEL_TO_MINUTES`
in `src/db.py`. -/
def DEFAULT_LEVEL_TO_MINUTES : List (Int × Int) :=
  [(1, 1), (2, 30), (3, 240), (4, 1440), (5, 2880), (6, 5760), (7, 11520),
   (8, 23040), (9, 46080), (10, 92160), (11, 138240), (12, 213120)]

/-- Python `dict.get(k, default)` on an association list. -/
def dictGet (tbl : List (Int × Int)) (k : Int) (default : Int) : Int :=
  match tbl.find? (fun p => p.1 = k) with
  | some p => p.2
  | none => default

/-- `progress_to_minutes` from `src/db.py`: interval in minutes for a given
progress level (`progress <= 0` → 0 minutes; `>= 12` → the level-12 entry;
otherwise the table entry, defaulting to the level-12 entry). -/
def progress_to_minutes (tbl : List (Int × Int)) (progress : Int) : Int :=
  if progress ≤ 0 then 0
  else if progress ≥ 12 then dictGet tbl 12 0
  else dictGet tbl progress (dictGet tbl 12 0)

/-- `compute_next_due_ts` from `src/db.py`: base timestamp (falling back to
`now` when `last_success_ts` is NULL) plus the interval in seconds. -/
def compute_next_due_ts (tbl : List (Int × Int)) (last_success_ts : Option Int)
    (progress : Int) (now : Int) : Int :=
  (last_success_ts.getD now) + (progress_to_minutes tbl progress) * 60

/-- A row of the `words` table (schema in `init_db`, `src/db.py`).
The SQL column `example` is called `example_` because `example` is a Lean
keyword. -/
structure WordRow where
  id : Int
  sheet_row : Int
  progress : Int
  question : List Char
  answer : List Char
  example_ : Option (List Char)
  last_success_ts : Option Int
  next_due_ts : Option Int
  mistakes_count : Int
deriving DecidableEq, Repr

/-- A row of the `mistakes` table (schema in `init_db`, `src/db.py`). -/
structure MistakeRow where
  id : Int
  user_id : Int
  question : List Char
  answer : List Char
  ts : Int
deriving DecidableEq, Repr

/-- The SQLite database: the `words` table and the `mistakes` table. -/
structure DB where
  words : List WordRow
  mistakes : List MistakeRow
deriving DecidableEq, Repr

/-- `SELECT * FROM words WHERE id = ?` followed by `fetchone`. -/
def findWord (words : List WordRow) (word_id : Int) : Option WordRow :=
  words.find? (fun w => w.id = word_id)

/-- `UPDATE words SET progress = ?, last_success_ts = ?, next_due_ts = ?
WHERE id = ?`. -/
def updateWordSched (words : List WordRow) (word_id : Int) (progress : Int)
    (last_success_ts next_due_ts : Option Int) : List WordRow :=
  words.map (fun w =>
    if w.id = word_id then
      { w with progress := progress, last_success_ts := last_success_ts,
               next_due_ts := next_due_ts }
    else w)

/-- `increment_progress_and_update_due` from `src/db.py`: on a missing id the
function returns 0 and changes nothing; otherwise it adds 1 to the progress
(no upper clamp in the source), stamps `last_success_ts = now`, recomputes
`next_due_ts`, and returns the new progress. -/
def increment_progress_and_update_due (tbl : List (Int × Int))
    (words : List WordRow) (word_id : Int) (now : Int) : List WordRow × Int :=
  match findWord words word_id with
  | none => (words, 0)
  | some row =>
    let progress := row.progress + 1
    let next_due := compute_next_due_ts tbl (some now) progress now
    (updateWordSched words word_id progress (some now) (some next_due), progress)

/-- `decrement_progress` from `src/db.py`: on a missing id returns 0 and
changes nothing; otherwise subtracts 2 when current progress > 6 else 1
(floored at 0).  When `current > 6` and the new progress is still positive the
word is deferred: `next_due_ts = now + 24h` and `last_success_ts` is
back-dated so the usual schedule formula lands on that target; otherwise
`last_success_ts` is cleared and `next_due_ts = now`. -/
def decrement_progress (tbl : List (Int × Int)) (words : List WordRow)
    (word_id : Int) (now : Int) : List WordRow × Int :=
  match findWord words word_id with
  | none => (words, 0)
  | some row =>
    let current := row.progress
    let step : Int := if current > 6 then 2 else 1
    let new_progress := max 0 (current - step)
    if current > 6 ∧ new_progress > 0 then
      let minutes := progress_to_minutes tbl new_progress
      let target := now + 24 * 60 * 60
      let base_ts := target - minutes * 60
      (updateWordSched words word_id new_progress (some base_ts) (some target),
       new_progress)
    else
      (updateWordSched words word_id new_progress none (some now), new_progress)

/-- `log_mistake` from `src/db.py`: on a missing word id it returns without
touching anything; otherwise it inserts a `mistakes` row (AUTOINCREMENT id)
and bumps the word's `mistakes_count`. -/
def log_mistake (db : DB) (user_id word_id : Int) (now : Int) : DB :=
  match findWord db.words word_id with
  | none => db
  | some row =>
    let newId : Int := 1 + (db.mistakes.map (fun m => m.id)).foldr max 0
    { words := db.words.map (fun w =>
        if w.id = word_id then { w with mistakes_count := w.mistakes_count + 1 }
        else w),
      mistakes := db.mistakes ++
        [{ id := newId, user_id := user_id, question := row.question,
           answer := row.answer, ts := now }] }

/-- `replace_all_mistakes` from `src/db.py`: `DELETE FROM mistakes` then bulk
insert of the given `(user_id, question, answer, ts)` tuples; AUTOINCREMENT
assigns ids in insertion order.  The `words` table is not touched. -/
def replace_all_mistakes (db : DB)
    (entries : List (Int × List Char × List Char × Int)) : DB :=
  { db with
    mistakes := entries.enum.map (fun p =>
      { id := (p.1 : Int) + 1, user_id := p.2.1, question := p.2.2.1,
        answer := p.2.2.2.1, ts := p.2.2.2.2 }) }

/-- `get_all_mistakes_for_sync` from `src/db.py` projects every `mistakes`
row, ordered by `ts ASC, id ASC`; the ordering is irrelevant for the
emptiness claim, so the model keeps insertion order (which the insert paths
already keep sorted by id). -/
def get_all_mistakes_for_sync (db : DB) : List MistakeRow :=
  db.mistakes

/-- Tier-1 candidates of `get_next_word`:
`WHERE next_due_ts IS NULL OR next_due_ts <= now`. -/
def dueList (words : List WordRow) (now : Int) : List WordRow :=
  words.filter (fun w =>
    match w.next_due_ts with
    | none => true
    | some t => decide (t ≤ now))

/-- Sort key used by `ORDER BY next_due_ts ASC` (rows there always have a
non-NULL `next_due_ts`). -/
def dueKey (w : WordRow) : Int :=
  w.next_due_ts.getD 0

/-- Insertion step of the sort modelling `ORDER BY next_due_ts ASC`. -/
def insertByDue (w : WordRow) : List WordRow → List WordRow
  | [] => [w]
  | x :: xs => if dueKey w ≤ dueKey x then w :: x :: xs else x :: insertByDue w xs

/-- Sort modelling `ORDER BY next_due_ts ASC` (insertion sort; SQLite's
ordering is any stable-by-key ordering, only membership and key-sortedness
matter). -/
def sortByDue : List WordRow → List WordRow
  | [] => []
  | x :: xs => insertByDue x (sortByDue xs)

/-- Tier-2 candidates of `get_next_word`: the up-to-100 scheduled rows nearest
by `next_due_ts` (`WHERE next_due_ts IS NOT NULL ORDER BY next_due_ts ASC
LIMIT 100`). -/
def upcomingWindow (words : List WordRow) : List WordRow :=
  (sortByDue (words.filter (fun w => w.next_due_ts.isSome))).take 100

/-- `get_next_word` from `src/db.py`.  `r` is the randomness: each random
draw from a candidate list `l` is modelled as `l[r % l.length]`.
Tier 1: a random due-or-unscheduled row; tier 2: a random row among the
up-to-100 nearest upcoming; tier 3 (empty table): a random row, i.e. `none`. -/
def get_next_word (words : List WordRow) (now : Int) (r : Nat) : Option WordRow :=
  let due := dueList words now
  match due[r % due.length]? with
  | some row => some row
  | none =>
    let upcoming := upcomingWindow words
    match upcoming[r % upcoming.length]? with
    | some row => some row
    | none => words[r % words.length]?

/-- Same-length branch of `distance_leq1` (`src/main.py`): walk `zip a b`
counting mismatching positions, bailing out with 2 as soon as a second
mismatch is seen; otherwise return the accumulated count. -/
def sameLenScan : List Char → List Char → Nat → Nat
  | ca :: a, cb :: b, m =>
    if ca ≠ cb then
      if m + 1 > 1 then 2 else sameLenScan a b (m + 1)
    else sameLenScan a b m
  | _, _, m => m

/-- Length-difference-1 branch of `distance_leq1` (`src/main.py`), with `a`
the shorter string: on a mismatch skip one character of the longer string
`b`, bailing out with 2 after a second mismatch; leftover characters of `b`
at the end each count as a mismatch. -/
def skipScan : List Char → List Char → Nat → Nat
  | ca :: a, cb :: b, m =>
    if ca = cb then skipScan a b m
    else if m + 1 > 1 then 2 else skipScan (ca :: a) b (m + 1)
  | [], b, m => if m + b.length ≤ 1 then m + b.length else 2
  | _ :: _, [], m => if m ≤ 1 then m else 2

/-- `distance_leq1` from `src/main.py`: 0 when the strings are equal, 1 when
one insertion/deletion/substitution turns one into the other, otherwise 2. -/
def distance_leq1 (a b : List Char) : Nat :=
  if a = b then 0
  else if ((a.length : Int) - (b.length : Int)).natAbs > 1 then 2
  else if a.length = b.length then sameLenScan a b 0
  else if a.length > b.length then skipScan b a 0
  else skipScan a b 0

/-- Python `s.split()`: split on whitespace runs, no empty pieces. -/
def pySplit (s : List Char) : List (List Char) :=
  (s.splitOnP (fun c => c.isWhitespace)).filter (fun w => ¬ w.isEmpty)

/-- The trailing-punctuation loop of `normalize_answer` (`src/main.py`):
`while s and s[-1] in ".!?": s = s[:-1].rstrip()`, implemented on the
reversed string.  The recursion is indexed by fuel to stay structural (and
hence kernel-reducible); each loop iteration removes at least one character,
so fuel equal to the string length (see `stripPunctRev`) never runs out. -/
def stripPunctRevFuel : Nat → List Char → List Char
  | 0, l => l
  | _ + 1, [] => []
  | fuel + 1, c :: rest =>
    if c = '.' ∨ c = '!' ∨ c = '?' then
      stripPunctRevFuel fuel (rest.dropWhile Char.isWhitespace)
    else c :: rest

/-- The trailing-punctuation loop of `normalize_answer`, on the reversed
string. -/
def stripPunctRev (l : List Char) : List Char :=
  stripPunctRevFuel l.length l

/-- `normalize_answer` from `src/main.py`: collapse whitespace
(`" ".join(s.strip().split())`), strip trailing `.`/`!`/`?` (re-stripping
spaces after each removal), and lowercase. -/
def normalize_answer (s : List Char) : List Char :=
  ((stripPunctRev (List.intercalate [' '] (pySplit s)).reverse).reverse).map
    Char.toLower

/-- The three reply kinds of `handle_typed_answer` (`src/main.py`):
`dist == 0` → correct, `dist == 1` → almost correct, otherwise wrong. -/
inductive AnswerOutcome where
  | correct
  | almost
  | wrong
deriving DecidableEq, Repr

/-- Database effect of `handle_typed_answer` (`src/main.py`): look up the
current word (`none` when absent, mirroring the early return), normalize both
answers, compute `distance_leq1`; distance 0 or 1 increments progress,
anything else decrements progress and logs a mistake. -/
def handle_typed_answer (tbl : List (Int × Int)) (db : DB)
    (user_id word_id : Int) (user_answer_raw : List Char) (now : Int) :
    DB × Option AnswerOutcome :=
  match findWord db.words word_id with
  | none => (db, none)
  | some row =>
    let user_norm := normalize_answer user_answer_raw
    let correct_norm := normalize_answer row.answer
    let dist := distance_leq1 user_norm correct_norm
    if dist = 0 then
      ({ db with
         words := (increment_progress_and_update_due tbl db.words word_id now).1 },
       some AnswerOutcome.correct)
    else if dist = 1 then
      ({ db with
         words := (increment_progress_and_update_due tbl db.words word_id now).1 },
       some AnswerOutcome.almost)
    else
      let db2 :=
        { db with words := (decrement_progress tbl db.words word_id now).1 }
      (log_mistake db2 user_id word_id now, some AnswerOutcome.wrong)

/-- One-deletion relation: `b` is `a` with one extra character inserted
(equivalently, deleting one character of `b` yields `a`). -/
def insertOne (a b : List Char) : Prop :=
  ∃ u v c, a = u ++ v ∧ b = u ++ c :: v

/-- One-substitution relation: `a` and `b` differ in exactly one position. -/
def substOne (a b : List Char) : Prop :=
  ∃ u v c d, c ≠ d ∧ a = u ++ c :: v ∧ b = u ++ d :: v

/-- Levenshtein distance exactly 1: one insertion, one deletion, or one
substitution turns `a` into `b` (and hence `a ≠ b`). -/
def oneEditAway (a b : List Char) : Prop :=
  insertOne a b ∨ insertOne b a ∨ substOne a b

/-- A generic sample card used to build the concrete witnesses and
counterexamples below. -/
def sampleCard : WordRow :=
  { id := 1, sheet_row := 1, progress := 3, question := ['q'], answer := ['a'],
    example_ := none, last_success_ts := none, next_due_ts := none,
    mistakes_count := 0 }

theorem findWord_updateWordSched (words : List WordRow) (word_id : Int)
    (p : Int) (ls nd : Option Int) :
    findWord (updateWordSched words word_id p ls nd) word_id =
      (findWord words word_id).map (fun w =>
        { w with progress := p, last_success_ts := ls, next_due_ts := nd }) := by
  induction words with
  | nil => rfl
  | cons w ws ih =>
    simp only [findWord, updateWordSched, List.map_cons, List.find?_cons] at *
    by_cases h : w.id = word_id
    · simp [h]
    · simp only [if_neg h]
      simpa [h] using ih

/-- Claim C7 counterexample: under the default table, `progress_to_minutes 0`
is 0 minutes (the card is an immediate "debtor"), not the 1 minute the claim
asserts. -/
theorem progress_to_minutes_zero_ne_one :
    progress_to_minutes DEFAULT_LEVEL_TO_MINUTES 0 ≠ 1 := by decide

/-- Claim C7 (amended): under the default interval table, `delay(0)` is 0
minutes — strictly smaller than the 1 minute of level 1 — so a level-0 card is
due with no delay at all. -/
theorem progress_to_minutes_zero_and_one :
    progress_to_minutes DEFAULT_LEVEL_TO_MINUTES 0 = 0 ∧
    progress_to_minutes DEFAULT_LEVEL_TO_MINUTES 1 = 1 := by decide

/-- Claim C8: under the default interval table, the level-to-delay mapping is
monotonically non-decreasing on levels `0 ≤ l1 ≤ l2 ≤ 12`. -/
theorem progress_to_minutes_monotone (l1 l2 : Int) (h0 : 0 ≤ l1)
    (h12 : l1 ≤ l2) (h2 : l2 ≤ 12) :
    progress_to_minutes DEFAULT_LEVEL_TO_MINUTES l1 ≤
      progress_to_minutes DEFAULT_LEVEL_TO_MINUTES l2 := by
  have h1 : l1 ≤ 12 := le_trans h12 h2
  have h02 : 0 ≤ l2 := le_trans h0 h12
  interval_cases l1 <;> interval_cases l2 <;> decide

/-- Witness for C8 at levels 3 and 7. -/
theorem progress_to_minutes_monotone_witness :
    (0 : Int) ≤ 3 ∧ (3 : Int) ≤ 7 ∧ (7 : Int) ≤ 12 ∧
    progress_to_minutes DEFAULT_LEVEL_TO_MINUTES 3 ≤
      progress_to_minutes DEFAULT_LEVEL_TO_MINUTES 7 :=
  ⟨by decide, by decide, by decide,
   progress_to_minutes_monotone 3 7 (by decide) (by decide) (by decide)⟩

/-- Claim C1 counterexample: a card already at progress 12 is pushed to 13 by
`increment_progress_and_update_due`; the source has no `min(·, 12)` clamp. -/
theorem increment_no_clamp_cex :
    (increment_progress_and_update_due DEFAULT_LEVEL_TO_MINUTES
        [{ sampleCard with progress := 12 }] 1 100).2 ≠ min (12 + 1) 12 := by
  decide

/-- Claim C1 (amended): for an existing card,
`increment_progress_and_update_due` sets `newProgress = oldProgress + 1`
(unclamped, so progress can exceed 12; the interval table clamps the delay at
the level-12 entry instead), sets `last_success_ts = now`, sets
`next_due_ts = now + 60 * delay(newProgress)` (i.e.
`lastSuccessTime + delay(newProgress)` in seconds), persists these, and
returns `newProgress`. -/
theorem increment_spec (tbl : List (Int × Int)) (words : List WordRow)
    (word_id now : Int) (row : WordRow)
    (h : findWord words word_id = some row) :
    (increment_progress_and_update_due tbl words word_id now).2 =
      row.progress + 1 ∧
    findWord (increment_progress_and_update_due tbl words word_id now).1
        word_id =
      some { row with
              progress := row.progress + 1
              last_success_ts := some now
              next_due_ts :=
                some (now + progress_to_minutes tbl (row.progress + 1) * 60) } := by
  simp only [increment_progress_and_update_due, h, compute_next_due_ts,
    Option.getD_some]
  exact ⟨trivial, by rw [findWord_updateWordSched, h]; rfl⟩

/-- Witness for C1 (amended) on a one-card store at progress 3. -/
theorem increment_spec_witness :
    findWord [sampleCard] 1 = some sampleCard ∧
    (increment_progress_and_update_due DEFAULT_LEVEL_TO_MINUTES [sampleCard]
        1 50).2 = sampleCard.progress + 1 :=
  ⟨by decide,
   (increment_spec DEFAULT_LEVEL_TO_MINUTES [sampleCard] 1 50 sampleCard
      (by decide)).1⟩

/-- Claim C5: for an existing card, `decrement_progress` returns
`max 0 (oldProgress - 1)` when `oldProgress ≤ 6` and `max 0 (oldProgress - 2)`
when `oldProgress > 6`. -/
theorem decrement_returns_spec (tbl : List (Int × Int)) (words : List WordRow)
    (word_id now : Int) (row : WordRow)
    (h : findWord words word_id = some row) :
    (row.progress ≤ 6 →
      (decrement_progress tbl words word_id now).2 = max 0 (row.progress - 1)) ∧
    (row.progress > 6 →
      (decrement_progress tbl words word_id now).2 = max 0 (row.progress - 2)) := by
  constructor
  · intro hle
    have hp : ¬ row.progress > 6 := by omega
    simp only [decrement_progress, h]
    simp [hp]
  · intro hgt
    have hpos : (0 : Int) < max 0 (row.progress - 2) := by omega
    simp only [decrement_progress, h]
    simp [hgt, hpos]

/-- Witness for C5 at progress 3 (low branch) and progress 8 (high branch). -/
theorem decrement_returns_witness :
    (decrement_progress DEFAULT_LEVEL_TO_MINUTES [sampleCard] 1 70).2 =
      max 0 (3 - 1) ∧
    (decrement_progress DEFAULT_LEVEL_TO_MINUTES
        [{ sampleCard with progress := 8 }] 1 70).2 = max 0 (8 - 2) :=
  ⟨(decrement_returns_spec DEFAULT_LEVEL_TO_MINUTES [sampleCard] 1 70
      sampleCard (by decide)).1 (by decide),
   (decrement_returns_spec DEFAULT_LEVEL_TO_MINUTES
      [{ sampleCard with progress := 8 }] 1 70
      { sampleCard with progress := 8 } (by decide)).2 (by decide)⟩

/-- Claim C2 counterexample: failing a card at progress 8 does NOT clear
`last_success_ts` and does NOT make it due now: the stored row keeps a
(back-dated) `last_success_ts` of `1000 + 86400 - 5760*60 = -258200` and a
`next_due_ts` of `now + 24h = 87400`. -/
theorem decrement_reset_cex :
    (findWord (decrement_progress DEFAULT_LEVEL_TO_MINUTES
        [{ sampleCard with progress := 8 }] 1 1000).1 1).map
        (fun r => (r.last_success_ts, r.next_due_ts)) =
      some (some (-258200), some 87400) ∧
    ((some (-258200), some 87400) : Option Int × Option Int) ≠
      (none, some 1000) := by decide

/-- Claim C2 (amended): `decrement_progress` clears `last_success_ts` and sets
`next_due_ts = now` (immediately due) only when the card's prior progress is
at most 6; a card with prior progress above 6 is instead deferred by 24 hours
(claim C9). -/
theorem decrement_reset_spec (tbl : List (Int × Int)) (words : List WordRow)
    (word_id now : Int) (row : WordRow)
    (h : findWord words word_id = some row) (hle : row.progress ≤ 6) :
    findWord (decrement_progress tbl words word_id now).1 word_id =
      some { row with
              progress := max 0 (row.progress - 1)
              last_success_ts := none
              next_due_ts := some now } := by
  simp only [decrement_progress, h]
  rw [if_neg (fun hc => absurd hc.1 (show ¬ row.progress > 6 by omega))]
  rw [findWord_updateWordSched, h]
  simp [show ¬ row.progress > 6 by omega]

/-- Witness for C2 (amended) on a one-card store at progress 3. -/
theorem decrement_reset_witness :
    findWord (decrement_progress DEFAULT_LEVEL_TO_MINUTES [sampleCard] 1
        400).1 1 =
      some { sampleCard with
              progress := max 0 (sampleCard.progress - 1)
              last_success_ts := none
              next_due_ts := some 400 } :=
  decrement_reset_spec DEFAULT_LEVEL_TO_MINUTES [sampleCard] 1 400 sampleCard
    (by decide) (by decide)

/-- Claim C9: failing a card with progress above 6 defers it: the stored row
has `next_due_ts = now + 86400`, progress down by exactly 2, and still
satisfies the success-path scheduling relation
`next_due_ts = last_success_ts + 60 * delay(progress)`. -/
theorem decrement_defer_spec (tbl : List (Int × Int)) (words : List WordRow)
    (word_id now : Int) (row : WordRow)
    (h : findWord words word_id = some row) (hgt : row.progress > 6) :
    ∀ r, findWord (decrement_progress tbl words word_id now).1 word_id =
        some r →
      r.progress = row.progress - 2 ∧
      r.next_due_ts = some (now + 24 * 60 * 60) ∧
      r.next_due_ts =
        some (r.last_success_ts.getD 0 + progress_to_minutes tbl r.progress * 60) := by
  have hmax : max 0 (row.progress - 2) = row.progress - 2 := by omega
  intro r hr
  simp only [decrement_progress, h] at hr
  rw [if_pos ⟨hgt, by rw [if_pos hgt]; omega⟩, findWord_updateWordSched, h] at hr
  injection hr with hr
  subst hr
  rw [if_pos hgt]
  refine ⟨hmax, rfl, ?_⟩
  simp only [hmax, Option.getD_some, Option.some.injEq]
  ring

/-- Witness for C9 on a one-card store at progress 8. -/
theorem decrement_defer_witness :
    ({ sampleCard with
        progress := 6
        last_success_ts := some (1000 + 86400 - 5760 * 60)
        next_due_ts := some (1000 + 86400) } : WordRow).progress = 8 - 2 :=
  (decrement_defer_spec DEFAULT_LEVEL_TO_MINUTES
    [{ sampleCard with progress := 8 }] 1 1000
    { sampleCard with progress := 8 } (by decide) (by decide)
    { sampleCard with
        progress := 6
        last_success_ts := some (1000 + 86400 - 5760 * 60)
        next_due_ts := some (1000 + 86400) } (by decide)).1

/-- Claim C4 counterexample: on a missing card id the operations do not
surface a distinct NotFound result: `increment_progress_and_update_due` and
`decrement_progress` return the sentinel 0 — the same value
`decrement_progress` returns for a legitimate success on a progress-1 card —
and `log_mistake` silently does nothing. -/
theorem notfound_sentinel_cex :
    (increment_progress_and_update_due DEFAULT_LEVEL_TO_MINUTES [] 1 0).2 = 0 ∧
    (decrement_progress DEFAULT_LEVEL_TO_MINUTES [] 1 0).2 = 0 ∧
    (decrement_progress DEFAULT_LEVEL_TO_MINUTES
        [{ sampleCard with progress := 1 }] 1 0).2 = 0 ∧
    log_mistake { words := [], mistakes := [] } 7 1 0 =
      { words := [], mistakes := [] } := by decide

/-- Claim C4 (amended): on a card id not present in the store,
`increment_progress_and_update_due` and `decrement_progress` return 0 and
leave the store unchanged (a value indistinguishable from a success that
lands at progress 0), and `log_mistake` leaves the database unchanged;
no NotFound error is surfaced by these operations. -/
theorem notfound_noop_spec (tbl : List (Int × Int)) (words : List WordRow)
    (word_id now : Int) (h : findWord words word_id = none) :
    increment_progress_and_update_due tbl words word_id now = (words, 0) ∧
    decrement_progress tbl words word_id now = (words, 0) ∧
    ∀ db : DB, db.words = words → ∀ user_id,
      log_mistake db user_id word_id now = db := by
  refine ⟨?_, ?_, ?_⟩
  · simp [increment_progress_and_update_due, h]
  · simp [decrement_progress, h]
  · intro db hdb user_id
    simp [log_mistake, hdb, h]

/-- Witness for C4 (amended) on the empty store. -/
theorem notfound_noop_witness :
    increment_progress_and_update_due DEFAULT_LEVEL_TO_MINUTES [] 5 0 =
      ([], 0) :=
  (notfound_noop_spec DEFAULT_LEVEL_TO_MINUTES [] 5 0 (by decide)).1

/-- Claim C3 counterexample: importing an empty mistake log over a store whose
only card carries `mistakes_count = 5` leaves that count at 5, while zero log
entries reference the card — `replace_all_mistakes` never recomputes (or even
touches) any card's `mistakes_count`. -/
theorem replace_all_mistakes_count_cex :
    ¬ (∀ w ∈ (replace_all_mistakes
          { words := [{ sampleCard with mistakes_count := 5 }], mistakes := [] }
          []).words,
        w.mistakes_count =
          ((replace_all_mistakes
              { words := [{ sampleCard with mistakes_count := 5 }],
                mistakes := [] } []).mistakes.filter (fun m =>
            m.question = w.question ∧ m.answer = w.answer)).length) := by
  decide

/-- Claim C3 (amended): `replace_all_mistakes` replaces the mistake log with
exactly the given entries (ids assigned in insertion order) and leaves every
card — in particular every card's `mistakeCount` — unchanged; importing the
empty log and exporting does return the empty list, but cards keep whatever
`mistakes_count` they already had (it is restored from the word-import
payload by `replace_all_words`, not recomputed from the log). -/
theorem replace_all_mistakes_spec (db : DB)
    (entries : List (Int × List Char × List Char × Int)) :
    (replace_all_mistakes db entries).words = db.words ∧
    ((replace_all_mistakes db entries).mistakes.map (fun m =>
        (m.user_id, m.question, m.answer, m.ts))) = entries ∧
    get_all_mistakes_for_sync (replace_all_mistakes db []) = [] := by
  refine ⟨rfl, ?_, rfl⟩
  simp only [replace_all_mistakes, List.map_map]
  have : ((fun m : MistakeRow => (m.user_id, m.question, m.answer, m.ts)) ∘
      (fun p : Nat × (Int × List Char × List Char × Int) =>
        ({ id := (p.1 : Int) + 1, user_id := p.2.1, question := p.2.2.1,
           answer := p.2.2.2.1, ts := p.2.2.2.2 } : MistakeRow))) =
      (fun p => p.2) := by
    funext p
    rfl
  rw [this, List.enum_map_snd]

theorem length_insertByDue (w : WordRow) (l : List WordRow) :
    (insertByDue w l).length = l.length + 1 := by
  induction l with
  | nil => rfl
  | cons x xs ih =>
    simp only [insertByDue]
    split <;> simp [ih]

theorem length_sortByDue (l : List WordRow) :
    (sortByDue l).length = l.length := by
  induction l with
  | nil => rfl
  | cons x xs ih => simp [sortByDue, length_insertByDue, ih]

theorem mem_insertByDue (a w : WordRow) (l : List WordRow) :
    a ∈ insertByDue w l ↔ a = w ∨ a ∈ l := by
  induction l with
  | nil => simp [insertByDue]
  | cons x xs ih =>
    simp only [insertByDue]
    split
    · simp
    · simp only [List.mem_cons, ih]
      tauto

theorem mem_sortByDue (a : WordRow) (l : List WordRow) :
    a ∈ sortByDue l ↔ a ∈ l := by
  induction l with
  | nil => simp [sortByDue]
  | cons x xs ih => simp [sortByDue, mem_insertByDue, ih]

theorem mem_upcomingWindow (a : WordRow) (words : List WordRow)
    (h : a ∈ upcomingWindow words) : a ∈ words := by
  have h1 : a ∈ sortByDue (words.filter (fun w => w.next_due_ts.isSome)) :=
    List.mem_of_mem_take h
  exact List.mem_of_mem_filter ((mem_sortByDue _ _).mp h1)

/-- Claim C6: `get_next_word` returns `none` exactly on the empty store; on a
non-empty store it returns a card from the store — a uniformly-drawn due (or
unscheduled) card when one exists, otherwise a uniformly-drawn card from the
window of up to 100 nearest upcoming cards by ascending `next_due_ts`
(uniformity being modelled by the index `r % pool.length`: every card of the
relevant pool is returned for some draw `k`). -/
theorem get_next_word_spec (words : List WordRow) (now : Int) (r : Nat) :
    (get_next_word words now r = none ↔ words = []) ∧
    (∀ w, get_next_word words now r = some w → w ∈ words) ∧
    (dueList words now ≠ [] → ∀ w, get_next_word words now r = some w →
      w ∈ dueList words now) ∧
    (dueList words now = [] → ∀ w, get_next_word words now r = some w →
      w ∈ upcomingWindow words) ∧
    (∀ w ∈ dueList words now, ∃ k, get_next_word words now k = some w) ∧
    (dueList words now = [] → ∀ w ∈ upcomingWindow words,
      ∃ k, get_next_word words now k = some w) := by
  by_cases hdue : dueList words now = []
  case neg =>
    have hlen : 0 < (dueList words now).length := List.length_pos.mpr hdue
    have hidx : r % (dueList words now).length < (dueList words now).length :=
      Nat.mod_lt _ hlen
    have hres : get_next_word words now r =
        some ((dueList words now)[r % (dueList words now).length]) := by
      simp only [get_next_word]
      rw [List.getElem?_eq_getElem hidx]
    have hmemdue :
        (dueList words now)[r % (dueList words now).length] ∈
          dueList words now := List.getElem_mem hidx
    refine ⟨⟨?_, ?_⟩, ?_, ?_, ?_, ?_, ?_⟩
    · intro h
      rw [hres] at h
      cases h
    · intro h
      subst h
      exact absurd rfl hdue
    · intro w hw
      rw [hres] at hw
      injection hw with hw
      subst hw
      exact List.mem_of_mem_filter hmemdue
    · intro _ w hw
      rw [hres] at hw
      injection hw with hw
      subst hw
      exact hmemdue
    · intro h
      exact absurd h hdue
    · intro w hw
      obtain ⟨i, hi, hieq⟩ := List.mem_iff_getElem.mp hw
      refine ⟨i, ?_⟩
      simp only [get_next_word]
      rw [Nat.mod_eq_of_lt hi, List.getElem?_eq_getElem hi, hieq]
    · intro h
      exact absurd h hdue
  case pos =>
    have hnil : ∀ k : Nat,
        (dueList words now)[k % (dueList words now).length]? = none := by
      intro k
      rw [hdue]
      rfl
    by_cases hw : words = []
    · subst hw
      have hms : get_next_word ([] : List WordRow) now r = none := rfl
      refine ⟨⟨fun _ => rfl, fun _ => hms⟩, ?_, ?_, ?_, ?_, ?_⟩
      · intro w hcontra
        rw [hms] at hcontra
        cases hcontra
      · intro _ w hcontra
        rw [hms] at hcontra
        cases hcontra
      · intro _ w hcontra
        rw [hms] at hcontra
        cases hcontra
      · intro w hmem
        rw [hdue] at hmem
        cases hmem
      · intro _ w hmem
        cases hmem
    · have hfil : 0 < (words.filter (fun w => w.next_due_ts.isSome)).length := by
        obtain ⟨w0, ws, rfl⟩ := List.exists_cons_of_ne_nil hw
        have hw0 : w0.next_due_ts.isSome := by
          match hnd : w0.next_due_ts with
          | none =>
            have : w0 ∈ dueList (w0 :: ws) now := by
              simp [dueList, hnd]
            rw [hdue] at this
            cases this
          | some t =>
            rfl
        have : w0 ∈ (w0 :: ws).filter (fun w => w.next_due_ts.isSome) :=
          List.mem_filter.mpr ⟨List.mem_cons_self _ _, hw0⟩
        exact List.length_pos.mpr (List.ne_nil_of_mem this)
      have hup : 0 < (upcomingWindow words).length := by
        simp only [upcomingWindow, List.length_take, length_sortByDue]
        omega
      have hidx : r % (upcomingWindow words).length < (upcomingWindow words).length :=
        Nat.mod_lt _ hup
      have hres : get_next_word words now r =
          some ((upcomingWindow words)[r % (upcomingWindow words).length]) := by
        simp only [get_next_word]
        rw [hnil r, List.getElem?_eq_getElem hidx]
      have hmemup :
          (upcomingWindow words)[r % (upcomingWindow words).length] ∈
            upcomingWindow words := List.getElem_mem hidx
      refine ⟨⟨?_, ?_⟩, ?_, ?_, ?_, ?_, ?_⟩
      · intro h
        rw [hres] at h
        cases h
      · intro h
        exact absurd h hw
      · intro w hsome
        rw [hres] at hsome
        injection hsome with hsome
        subst hsome
        exact mem_upcomingWindow _ _ hmemup
      · intro hne
        exact absurd hdue hne
      · intro _ w hsome
        rw [hres] at hsome
        injection hsome with hsome
        subst hsome
        exact hmemup
      · intro w hmem
        rw [hdue] at hmem
        cases hmem
      · intro _ w hmem
        obtain ⟨i, hi, hieq⟩ := List.mem_iff_getElem.mp hmem
        refine ⟨i, ?_⟩
        simp only [get_next_word]
        rw [hnil i, Nat.mod_eq_of_lt hi, List.getElem?_eq_getElem hi, hieq]

/-- Witness for C6: the empty store yields no card, and a one-card store
yields that card. -/
theorem get_next_word_witness :
    get_next_word [] 0 0 = none ∧ get_next_word [sampleCard] 0 7 = some sampleCard :=
  ⟨(get_next_word_spec [] 0 0).1.mpr rfl, by
    have h := (get_next_word_spec [sampleCard] 0 7).1
    match hres : get_next_word [sampleCard] 0 7 with
    | none => exact absurd (h.mp hres) (by decide)
    | some w =>
      have hw := (get_next_word_spec [sampleCard] 0 7).2.1 w hres
      congr 1
      simpa using hw⟩

/-- Number of mismatching positions of two (equal-length) strings, the
quantity counted by the same-length loop of `distance_leq1`. -/
def mismatches : List Char → List Char → Nat
  | ca :: a, cb :: b => (if ca = cb then 0 else 1) + mismatches a b
  | _, _ => 0

theorem mismatches_self (a : List Char) : mismatches a a = 0 := by
  induction a with
  | nil => rfl
  | cons c a ih => simp [mismatches, ih]

theorem mismatches_eq_zero (a : List Char) : ∀ b : List Char,
    a.length = b.length → (mismatches a b = 0 ↔ a = b) := by
  induction a with
  | nil =>
    intro b h
    cases b with
    | nil => simp [mismatches]
    | cons cb b => simp at h
  | cons ca a ih =>
    intro b h
    cases b with
    | nil => simp at h
    | cons cb b =>
      simp only [List.length_cons, Nat.add_right_cancel_iff] at h
      by_cases hc : ca = cb
      · subst hc
        simp [mismatches, ih b h]
      · simp [mismatches, hc]

theorem substOne_mismatches (a b : List Char) (h : substOne a b) :
    mismatches a b = 1 := by
  obtain ⟨u, v, c, d, hcd, rfl, rfl⟩ := h
  induction u with
  | nil => simp [mismatches, hcd, mismatches_self]
  | cons cu u ih => simpa [mismatches] using ih

theorem mismatches_one_subst (a : List Char) : ∀ b : List Char,
    a.length = b.length → mismatches a b = 1 → substOne a b := by
  induction a with
  | nil =>
    intro b h h1
    cases b with
    | nil => simp [mismatches] at h1
    | cons cb b => simp at h
  | cons ca a ih =>
    intro b h h1
    cases b with
    | nil => simp at h
    | cons cb b =>
      simp only [List.length_cons, Nat.add_right_cancel_iff] at h
      by_cases hc : ca = cb
      · subst hc
        simp [mismatches] at h1
        obtain ⟨u, v, c, d, hcd, ha, hb⟩ := ih b h h1
        exact ⟨ca :: u, v, c, d, hcd, by rw [ha]; rfl, by rw [hb]; rfl⟩
      · simp only [mismatches, if_neg hc] at h1
        have h0 : mismatches a b = 0 := by omega
        have hab : a = b := (mismatches_eq_zero a b h).mp h0
        subst hab
        exact ⟨[], a, ca, cb, hc, rfl, rfl⟩

theorem insertOne_length (a b : List Char) (h : insertOne a b) :
    b.length = a.length + 1 := by
  obtain ⟨u, v, c, rfl, rfl⟩ := h
  simp [List.length_append]
  omega

theorem substOne_length (a b : List Char) (h : substOne a b) :
    a.length = b.length := by
  obtain ⟨u, v, c, d, _, rfl, rfl⟩ := h
  simp [List.length_append]

theorem insertOne_cons_same (c : Char) (a b : List Char) :
    insertOne (c :: a) (c :: b) ↔ insertOne a b := by
  constructor
  · rintro ⟨u, v, d, ha, hb⟩
    cases u with
    | nil =>
      simp only [List.nil_append] at ha hb
      subst ha
      injection hb with hb1 hb2
      subst hb1
      subst hb2
      exact ⟨[], a, c, rfl, rfl⟩
    | cons cu u =>
      simp only [List.cons_append] at ha hb
      injection ha with ha1 ha2
      injection hb with hb1 hb2
      subst ha2
      subst hb2
      exact ⟨u, v, d, rfl, rfl⟩
  · rintro ⟨u, v, d, rfl, rfl⟩
    exact ⟨c :: u, v, d, rfl, rfl⟩

theorem insertOne_cons_ne (ca cb : Char) (a b : List Char) (h : ca ≠ cb) :
    insertOne (ca :: a) (cb :: b) ↔ b = ca :: a := by
  constructor
  · rintro ⟨u, v, d, ha, hb⟩
    cases u with
    | nil =>
      simp only [List.nil_append] at ha hb
      injection hb with hb1 hb2
      rw [hb2, ← ha]
    | cons cu u =>
      simp only [List.cons_append] at ha hb
      injection ha with ha1 _
      injection hb with hb1 _
      exact absurd (ha1.trans hb1.symm) h
  · rintro rfl
    exact ⟨[], ca :: a, cb, rfl, rfl⟩

theorem oneEditAway_irrefl (a : List Char) : ¬ oneEditAway a a := by
  rintro (h | h | h)
  · have := insertOne_length _ _ h
    omega
  · have := insertOne_length _ _ h
    omega
  · obtain ⟨u, v, c, d, hcd, h1, h2⟩ := h
    have h3 : u ++ c :: v = u ++ d :: v := h1.symm.trans h2
    have h4 : c :: v = d :: v := by
      exact List.append_cancel_left h3
    injection h4 with h5 _
    exact hcd h5

theorem sameLenScan_eq (a : List Char) : ∀ (b : List Char) (m : Nat), m ≤ 1 →
    sameLenScan a b m =
      if m + mismatches a b ≤ 1 then m + mismatches a b else 2 := by
  induction a with
  | nil =>
    intro b m hm
    cases b <;> simp [sameLenScan, mismatches, hm]
  | cons ca a ih =>
    intro b m hm
    cases b with
    | nil => simp [sameLenScan, mismatches, hm]
    | cons cb b =>
      by_cases hc : ca = cb
      · subst hc
        simp only [sameLenScan, mismatches, if_neg (by simp : ¬ ca ≠ ca),
          if_pos rfl, eq_self_iff_true, if_true, Nat.zero_add]
        exact ih b m hm
      · simp only [sameLenScan, mismatches, if_pos hc, if_neg hc]
        by_cases hm1 : m + 1 > 1
        · rw [if_pos hm1, if_neg (by omega)]
        · rw [if_neg hm1, ih b (m + 1) (by omega)]
          split_ifs <;> omega

theorem skipScan_eqlen (a : List Char) : ∀ b : List Char, a.length = b.length →
    skipScan a b 1 = if a = b then 1 else 2 := by
  induction a with
  | nil =>
    intro b h
    cases b with
    | nil => simp [skipScan]
    | cons cb b => simp at h
  | cons ca a ih =>
    intro b h
    cases b with
    | nil => simp at h
    | cons cb b =>
      simp only [List.length_cons, Nat.add_right_cancel_iff] at h
      by_cases hc : ca = cb
      · subst hc
        simp only [skipScan, if_pos rfl]
        rw [ih b h]
        by_cases hab : a = b
        · subst hab
          simp
        · simp [hab]
      · simp only [skipScan, if_neg hc]
        rw [if_pos (by omega)]
        rw [if_neg (by simp [hc] : ¬ (ca :: a = cb :: b))]

theorem skipScan_ins (b : List Char) : ∀ a : List Char,
    b.length = a.length + 1 →
    (skipScan a b 0 = 1 ↔ insertOne a b) ∧
    (skipScan a b 0 = 1 ∨ skipScan a b 0 = 2) := by
  induction b with
  | nil =>
    intro a h
    simp at h
  | cons cb b ih =>
    intro a h
    cases a with
    | nil =>
      have hb : b = [] := by
        simpa using List.eq_nil_of_length_eq_zero (by simpa using h)
      subst hb
      refine ⟨⟨fun _ => ⟨[], [], cb, rfl, rfl⟩, fun _ => by simp [skipScan]⟩, ?_⟩
      left
      simp [skipScan]
    | cons ca a =>
      have hlen : b.length = a.length + 1 := by simpa using h
      by_cases hc : ca = cb
      · subst hc
        have hrec : skipScan (ca :: a) (ca :: b) 0 = skipScan a b 0 := by
          simp [skipScan]
        rw [hrec, insertOne_cons_same]
        exact ih a hlen
      · have hrec : skipScan (ca :: a) (cb :: b) 0 = skipScan (ca :: a) b 1 := by
          simp only [skipScan, if_neg (fun hcc => hc hcc.symm ∘ Eq.symm)]
          rw [if_neg (fun hcc : ca = cb => hc hcc), if_neg (by omega)]
        have heq : (ca :: a).length = b.length := by
          simp [hlen]
        rw [hrec, skipScan_eqlen _ _ heq, insertOne_cons_ne ca cb a b hc]
        by_cases hab : ca :: a = b
        · rw [if_pos hab]
          simp [hab.symm]
        · rw [if_neg hab]
          constructor
          · constructor
            · intro h2
              cases h2
            · intro h2
              exact absurd h2.symm hab
          · right
            rfl

theorem distance_leq1_correct (a b : List Char) :
    (distance_leq1 a b = 0 ↔ a = b) ∧
    (distance_leq1 a b = 1 ↔ oneEditAway a b) ∧
    (distance_leq1 a b = 2 ↔ (a ≠ b ∧ ¬ oneEditAway a b)) := by
  by_cases hab : a = b
  · subst hab
    rw [distance_leq1, if_pos rfl]
    exact ⟨by simp, by simp [oneEditAway_irrefl a], by simp⟩
  · rw [distance_leq1, if_neg hab]
    by_cases hfar : ((a.length : Int) - (b.length : Int)).natAbs > 1
    · rw [if_pos hfar]
      have hno : ¬ oneEditAway a b := by
        rintro (h | h | h)
        · have := insertOne_length _ _ h
          omega
        · have := insertOne_length _ _ h
          omega
        · have := substOne_length _ _ h
          omega
      exact ⟨by simp [hab], by simp [hno], by simp [hab, hno]⟩
    · rw [if_neg hfar]
      by_cases hql : a.length = b.length
      · rw [if_pos hql]
        have hscan := sameLenScan_eq a b 0 (by omega)
        simp only [Nat.zero_add] at hscan
        have hm1 : 1 ≤ mismatches a b := by
          by_contra hcon
          have h0 : mismatches a b = 0 := by omega
          exact hab ((mismatches_eq_zero a b hql).mp h0)
        have hedit : oneEditAway a b ↔ substOne a b := by
          constructor
          · rintro (h | h | h)
            · have := insertOne_length _ _ h
              omega
            · have := insertOne_length _ _ h
              omega
            · exact h
          · exact fun h => Or.inr (Or.inr h)
        have hsub : mismatches a b = 1 ↔ substOne a b :=
          ⟨mismatches_one_subst a b hql, substOne_mismatches a b⟩
        rw [hscan]
        by_cases hle : mismatches a b ≤ 1
        · rw [if_pos hle]
          have hone : mismatches a b = 1 := by omega
          refine ⟨by simp [hone, hab], ?_, ?_⟩
          · rw [hone, hedit]
            exact iff_of_true rfl (hsub.mp hone)
          · rw [hone, hedit]
            simp [hsub.mp hone]
        · rw [if_neg hle]
          have hnsub : ¬ substOne a b :=
            fun h => hle (le_of_eq (substOne_mismatches a b h))
          refine ⟨by simp [hab], ?_, ?_⟩
          · rw [hedit]
            simp [hnsub]
          · rw [hedit]
            simp [hab, hnsub]
      · rw [if_neg hql]
        by_cases hgt : a.length > b.length
        · rw [if_pos hgt]
          have hlen : a.length = b.length + 1 := by omega
          obtain ⟨hiff, hor⟩ := skipScan_ins a b hlen
          have hedit : oneEditAway a b ↔ insertOne b a := by
            constructor
            · rintro (h | h | h)
              · have := insertOne_length _ _ h
                omega
              · exact h
              · have := substOne_length _ _ h
                omega
            · exact fun h => Or.inr (Or.inl h)
          refine ⟨?_, ?_, ?_⟩
          · rcases hor with h1 | h2
            · simp [h1, hab]
            · simp [h2, hab]
          · rw [hedit, ← hiff]
          · rcases hor with h1 | h2
            · rw [h1, hedit]
              simp [hiff.mp h1]
            · rw [h2, hedit]
              have hni : ¬ insertOne b a := fun hi => by
                rw [hiff.mpr hi] at h2
                cases h2
              simp [hab, hni]
        · rw [if_neg hgt]
          have hlen : b.length = a.length + 1 := by omega
          obtain ⟨hiff, hor⟩ := skipScan_ins b a hlen
          have hedit : oneEditAway a b ↔ insertOne a b := by
            constructor
            · rintro (h | h | h)
              · exact h
              · have := insertOne_length _ _ h
                omega
              · have := substOne_length _ _ h
                omega
            · exact fun h => Or.inl h
          refine ⟨?_, ?_, ?_⟩
          · rcases hor with h1 | h2
            · simp [h1, hab]
            · simp [h2, hab]
          · rw [hedit, ← hiff]
          · rcases hor with h1 | h2
            · rw [h1, hedit]
              simp [hiff.mp h1]
            · rw [h2, hedit]
              have hni : ¬ insertOne a b := fun hi => by
                rw [hiff.mpr hi] at h2
                cases h2
              simp [hab, hni]

/-- Claim C10: `distance_leq1` returns 0 exactly on equal strings, 1 exactly
when the Levenshtein edit distance is 1 (one insertion, deletion or
substitution turns one string into the other), and 2 otherwise; consequently
in `handle_typed_answer` a typed answer whose normalized form is within edit
distance 1 of the normalized correct answer is treated as a correct answer:
the card's progress is incremented and no mistake is logged. -/
theorem distance_and_typed_answer_spec :
    (∀ a b : List Char,
      (distance_leq1 a b = 0 ↔ a = b) ∧
      (distance_leq1 a b = 1 ↔ oneEditAway a b) ∧
      (distance_leq1 a b = 2 ↔ (a ≠ b ∧ ¬ oneEditAway a b))) ∧
    (∀ (tbl : List (Int × Int)) (db : DB) (user_id word_id : Int)
        (raw : List Char) (now : Int) (row : WordRow),
      findWord db.words word_id = some row →
      distance_leq1 (normalize_answer raw) (normalize_answer row.answer) ≤ 1 →
      ((handle_typed_answer tbl db user_id word_id raw now).1.mistakes =
          db.mistakes ∧
       (handle_typed_answer tbl db user_id word_id raw now).1.words =
          (increment_progress_and_update_due tbl db.words word_id now).1 ∧
       (handle_typed_answer tbl db user_id word_id raw now).2 ≠
          some AnswerOutcome.wrong)) := by
  refine ⟨distance_leq1_correct, ?_⟩
  intro tbl db user_id word_id raw now row h hdist
  simp only [handle_typed_answer, h]
  by_cases h0 :
      distance_leq1 (normalize_answer raw) (normalize_answer row.answer) = 0
  · rw [if_pos h0]
    exact ⟨rfl, rfl, fun hc => AnswerOutcome.noConfusion (Option.some.inj hc)⟩
  · rw [if_neg h0]
    have h1 :
        distance_leq1 (normalize_answer raw) (normalize_answer row.answer) = 1 := by
      omega
    rw [if_pos h1]
    exact ⟨rfl, rfl, fun hc => AnswerOutcome.noConfusion (Option.some.inj hc)⟩

/-- Witness for C10: answering `"A"` against the stored answer `"a"`
(normalization lowercases, distance 0) leaves the mistake log empty. -/
theorem distance_and_typed_answer_witness :
    findWord ({ words := [sampleCard], mistakes := [] } : DB).words 1 =
      some sampleCard ∧
    distance_leq1 (normalize_answer ['A']) (normalize_answer sampleCard.answer) ≤ 1 ∧
    (handle_typed_answer DEFAULT_LEVEL_TO_MINUTES
        { words := [sampleCard], mistakes := [] } 9 1 ['A'] 80).1.mistakes = [] :=
  ⟨by decide, by decide,
   (distance_and_typed_answer_spec.2 DEFAULT_LEVEL_TO_MINUTES
     { words := [sampleCard], mistakes := [] } 9 1 ['A'] 80 sampleCard
     (by decide) (by decide)).1⟩
